import Mathlib

/-!
Shallow embedding of `cement/ext/ext_configobj.py`
(`ConfigObjConfigHandler`), a configuration-handler adapter over the
ConfigObj library.

The configuration store is modelled as an ordered association list from
section names to sections, a section being an ordered association list
from key names to values.  Python dictionaries preserve insertion order
and have unique keys; association lists model the order directly, and
uniqueness of keys is carried as an explicit hypothesis (`dWF`, `Nodup`)
where a theorem needs it.  Operations that can raise `KeyError`
(`set`, `keys`, `get`, `merge`, `get_section_dict`) return `Option`,
`none` standing for the raised exception.
-/

set_option autoImplicit false

namespace ConfigObjHandler

/-- A configuration value: either an opaque scalar (modelled as a string)
or a nested mapping.  The nested-mapping constructor is what
`merge` tests with `type(dict_obj[section]) == dict`. -/
inductive Value where
  | str : String → Value
  | vdict : List (String × Value) → Value

/-- An ordered mapping from key names to values (one Python dict / one
ConfigObj section). -/
abbrev Sect := List (String × Value)

/-- The configuration store: an ordered mapping from section names to
sections (the handler itself, `self`, as a dict of dicts). -/
abbrev Config := List (String × Sect)

/-- Python dict read `d[k]`: first entry with key `k`, `none` for a
`KeyError`. -/
def lookupA {α : Type} : List (String × α) → String → Option α
  | [], _ => none
  | (k, v) :: rest, key => if k = key then some v else lookupA rest key

/-- Python dict write `d[k] = v`: replace in place if the key exists
(keeping its position), append at the end otherwise. -/
def setA {α : Type} : List (String × α) → String → α → List (String × α)
  | [], key, v => [(key, v)]
  | (k, w) :: rest, key, v =>
      if k = key then (k, v) :: rest else (k, w) :: setA rest key v

/-- `get_sections`: `return self.sections`, the list of section names in
insertion order. -/
def get_sections (c : Config) : List String :=
  c.map Prod.fst

/-- `keys(section)`: `return self[section].keys()`; `none` when the
section is absent (`KeyError`). -/
def keys (c : Config) (section_ : String) : Option (List String) :=
  (lookupA c section_).map (List.map Prod.fst)

/-- `get(section, key)`: `return self[section][key]`; `none` when the
section or the key is absent (`KeyError`). -/
def get (c : Config) (section_ key : String) : Option Value :=
  match lookupA c section_ with
  | none => none
  | some sec => lookupA sec key

/-- The in-place update `self[section][key] = value` on the nested
store, applied once the section is known to exist. -/
def setInSection : Config → String → String → Value → Config
  | [], _, _, _ => []
  | (s, sec) :: rest, section_, key, value =>
      if s = section_ then (s, setA sec key value) :: rest
      else (s, sec) :: setInSection rest section_ key value

/-- `set(section, key, value)`: `self[section][key] = value`; looking up
`self[section]` raises `KeyError` (`none`) when the section is absent. -/
def set (c : Config) (section_ key : String) (value : Value) :
    Option Config :=
  match lookupA c section_ with
  | none => none
  | some _ => some (setInSection c section_ key value)

/-- `has_section(section)`: `section in self.get_sections()`. -/
def has_section (c : Config) (section_ : String) : Bool :=
  (get_sections c).contains section_

/-- `add_section(section)`: `if not self.has_section(section):
self[section] = dict()`. -/
def add_section (c : Config) (section_ : String) : Config :=
  if has_section c section_ then c else setA c section_ []

/-- The inner loop of `merge`: `for key in list(dict_obj[section].keys())`,
writing each key according to the override policy.  `none` models a
propagated `KeyError`. -/
def mergeKeys (c : Config) (section_ : String) :
    List (String × Value) → Bool → Option Config
  | [], _ => some c
  | (key, value) :: rest, override =>
      if override then
        match set c section_ key value with
        | none => none
        | some c1 => mergeKeys c1 section_ rest override
      else
        match keys c section_ with
        | none => none
        | some ks =>
            if ks.contains key then mergeKeys c section_ rest override
            else
              match set c section_ key value with
              | none => none
              | some c1 => mergeKeys c1 section_ rest override

/-- `merge(dict_obj, override)`: for each top-level entry whose value is
a dict, ensure the section exists and merge the nested keys; other
entries are skipped.  `none` models a propagated `KeyError`. -/
def mergeCfg (c : Config) : List (String × Value) → Bool → Option Config
  | [], _ => some c
  | (section_, value) :: rest, override =>
      match value with
      | Value.vdict entries =>
          let c1 := if (get_sections c).contains section_ then c
                    else add_section c section_
          match mergeKeys c1 section_ entries override with
          | none => none
          | some c2 => mergeCfg c2 rest override
      | Value.str _ => mergeCfg c rest override

/-- The loop body of `get_section_dict`: `for key in self.keys(section):
dict_obj[key] = self.get(section, key)`, accumulating into a fresh dict. -/
def sectionDictGo (sec : Sect) : List String → Sect → Option Sect
  | [], acc => some acc
  | k :: ks, acc =>
      match lookupA sec k with
      | none => none
      | some v => sectionDictGo sec ks (setA acc k v)

/-- `get_section_dict(section)`: builds a fresh dict from `keys(section)`
and `get(section, key)`; `none` when the section is absent (`KeyError`
from `self.keys(section)`). -/
def get_section_dict (c : Config) (section_ : String) : Option Sect :=
  match lookupA c section_ with
  | none => none
  | some sec => sectionDictGo sec (sec.map Prod.fst) []

/-- The filesystem as seen by `parse_file`: a table of files keyed by
resolved path, each file already parsed by `ConfigObj(file_path).dict()`
into a top-level dict, together with the path resolution
`os.path.abspath(os.path.expanduser(...))`. -/
structure FileSystem where
  files : List (String × List (String × Value))
  normalize : String → String

/-- `parse_file(file_path)`: resolve the path; if it exists, merge the
parsed file with override enabled and return `True`, else return `False`
leaving the configuration untouched.  `none` models a propagated
exception. -/
def parse_file (fs : FileSystem) (c : Config) (file_path : String) :
    Option (Bool × Config) :=
  match lookupA fs.files (fs.normalize file_path) with
  | some d =>
      match mergeCfg c d true with
      | none => none
      | some c2 => some (true, c2)
  | none => some (false, c)

/-- A value is well formed when, if it is a nested mapping, its keys are
unique (as Python dict keys are). -/
def valWF : Value → Prop
  | Value.str _ => True
  | Value.vdict m => (m.map Prod.fst).Nodup

instance valWF.decide : (v : Value) → Decidable (valWF v)
  | Value.str _ => isTrue trivial
  | Value.vdict m => inferInstanceAs (Decidable ((m.map Prod.fst).Nodup))

/-- A merge argument is well formed when its top-level keys are unique
and each nested mapping has unique keys (true of any Python dict of
dicts). -/
def dWF (d : List (String × Value)) : Prop :=
  (d.map Prod.fst).Nodup ∧ ∀ p ∈ d, valWF p.2

instance dWF.decide (d : List (String × Value)) : Decidable (dWF d) :=
  inferInstanceAs (Decidable (_ ∧ _))

/-- The per-key outcome of one `merge` pass: with override the incoming
value wins when present, without override the pre-existing value wins. -/
def mergedValue (override : Bool) (old incoming : Option Value) :
    Option Value :=
  if override then
    match incoming with
    | some v => some v
    | none => old
  else
    match old with
    | some w => some w
    | none => incoming

/-! Basic facts about association-list lookup and update. -/

theorem lookupA_setA_self {α : Type} (l : List (String × α)) (k : String)
    (v : α) : lookupA (setA l k v) k = some v := by
  induction l with
  | nil => simp [setA, lookupA]
  | cons p rest ih =>
      obtain ⟨k0, w⟩ := p
      by_cases hk : k0 = k
      · subst hk
        simp [setA, lookupA]
      · simp [setA, lookupA, hk, ih]

theorem lookupA_setA_ne {α : Type} (l : List (String × α)) (k k' : String)
    (v : α) (h : k' ≠ k) : lookupA (setA l k v) k' = lookupA l k' := by
  induction l with
  | nil => simp [setA, lookupA, Ne.symm h]
  | cons p rest ih =>
      obtain ⟨k0, w⟩ := p
      by_cases hk : k0 = k
      · subst hk
        simp [setA, lookupA, Ne.symm h]
      · by_cases hk' : k0 = k'
        · subst hk'
          simp [setA, lookupA, hk]
        · simp [setA, lookupA, hk, hk', ih]

theorem mem_map_fst_setA {α : Type} (l : List (String × α)) (k k' : String)
    (v : α) : k' ∈ (setA l k v).map Prod.fst ↔ k' = k ∨ k' ∈ l.map Prod.fst := by
  induction l with
  | nil => simp [setA]
  | cons p rest ih =>
      obtain ⟨k0, w⟩ := p
      by_cases hk : k0 = k
      · subst hk
        simp [setA]
      · simp only [setA, if_neg hk, List.map_cons, List.mem_cons, ih]
        tauto

theorem map_fst_setA_of_not_mem {α : Type} (l : List (String × α))
    (k : String) (v : α) (h : k ∉ l.map Prod.fst) :
    (setA l k v).map Prod.fst = l.map Prod.fst ++ [k] := by
  induction l with
  | nil => simp [setA]
  | cons p rest ih =>
      obtain ⟨k0, w⟩ := p
      have hne : ¬ k0 = k := by
        intro he
        exact h (by simp [he])
      have hrest : k ∉ rest.map Prod.fst := by
        intro hm
        exact h (by simp [hm])
      simp [setA, hne, ih hrest]

theorem lookupA_isSome_iff {α : Type} (l : List (String × α)) (k : String) :
    (lookupA l k).isSome = true ↔ k ∈ l.map Prod.fst := by
  induction l with
  | nil => simp [lookupA]
  | cons p rest ih =>
      obtain ⟨k0, w⟩ := p
      by_cases hk : k0 = k
      · subst hk
        simp [lookupA]
      · simp [lookupA, hk, ih]
        tauto

theorem lookupA_eq_none_iff {α : Type} (l : List (String × α)) (k : String) :
    lookupA l k = none ↔ k ∉ l.map Prod.fst := by
  rw [← lookupA_isSome_iff]
  cases lookupA l k <;> simp

theorem mem_of_lookupA_eq_some {α : Type} (l : List (String × α))
    (k : String) (v : α) (h : lookupA l k = some v) : (k, v) ∈ l := by
  induction l with
  | nil => simp [lookupA] at h
  | cons p rest ih =>
      obtain ⟨k0, w⟩ := p
      by_cases hk : k0 = k
      · subst hk
        simp [lookupA] at h
        simp [h]
      · simp [lookupA, hk] at h
        simp [ih h]

theorem lookupA_eq_some_of_mem_nodup {α : Type} (l : List (String × α))
    (k : String) (v : α) (hn : (l.map Prod.fst).Nodup) (h : (k, v) ∈ l) :
    lookupA l k = some v := by
  induction l with
  | nil => simp at h
  | cons p rest ih =>
      obtain ⟨k0, w⟩ := p
      rw [List.map_cons, List.nodup_cons] at hn
      rcases List.mem_cons.mp h with h1 | h1
      · rw [← h1]
        simp [lookupA]
      · have hk : k0 ≠ k := by
          intro hk
          subst hk
          exact hn.1 (List.mem_map.mpr ⟨(k0, v), h1, rfl⟩)
        simp [lookupA, hk, ih hn.2 h1]

/-! Facts about the configuration-level operations. -/

theorem has_section_iff_lookupA (c : Config) (S : String) :
    has_section c S = true ↔ (lookupA c S).isSome = true := by
  rw [lookupA_isSome_iff]
  simp [has_section, get_sections]

theorem map_fst_setInSection (c : Config) (S K : String) (V : Value) :
    (setInSection c S K V).map Prod.fst = c.map Prod.fst := by
  induction c with
  | nil => simp [setInSection]
  | cons p rest ih =>
      obtain ⟨s, sec⟩ := p
      by_cases hs : s = S
      · simp [setInSection, hs]
      · simp [setInSection, hs, ih]

theorem lookupA_setInSection_self (c : Config) (S K : String) (V : Value) :
    lookupA (setInSection c S K V) S = (lookupA c S).map (fun sec => setA sec K V) := by
  induction c with
  | nil => simp [setInSection, lookupA]
  | cons p rest ih =>
      obtain ⟨s, sec⟩ := p
      by_cases hs : s = S
      · subst hs
        simp [setInSection, lookupA]
      · simp [setInSection, lookupA, hs, ih]

theorem lookupA_setInSection_ne (c : Config) (S S' K : String) (V : Value)
    (h : S' ≠ S) : lookupA (setInSection c S K V) S' = lookupA c S' := by
  induction c with
  | nil => simp [setInSection]
  | cons p rest ih =>
      obtain ⟨s, sec⟩ := p
      by_cases hs : s = S
      · subst hs
        simp [setInSection, lookupA, Ne.symm h]
      · by_cases hs' : s = S'
        · subst hs'
          simp [setInSection, hs, lookupA]
        · simp [setInSection, lookupA, hs, hs', ih]

theorem set_eq_some_of_has_section (c : Config) (S K : String) (V : Value)
    (h : has_section c S = true) :
    set c S K V = some (setInSection c S K V) := by
  rw [has_section_iff_lookupA] at h
  unfold set
  cases hl : lookupA c S with
  | none => rw [hl] at h; simp at h
  | some sec => rfl

theorem set_eq_none_of_not_has_section (c : Config) (S K : String)
    (V : Value) (h : has_section c S = false) : set c S K V = none := by
  have h2 : ¬ (lookupA c S).isSome = true := by
    rw [← has_section_iff_lookupA, h]
    simp
  unfold set
  cases hl : lookupA c S with
  | none => rfl
  | some sec => rw [hl] at h2; simp at h2

theorem get_setInSection (c : Config) (S K K' : String) (V : Value) :
    get (setInSection c S K V) S K' =
      if K' = K ∧ (lookupA c S).isSome then some V
      else get c S K' := by
  unfold get
  rw [lookupA_setInSection_self]
  cases hl : lookupA c S with
  | none => simp
  | some sec =>
      by_cases hk : K' = K
      · subst hk
        simp [lookupA_setA_self]
      · simp [hk, lookupA_setA_ne sec K K' V hk]

theorem get_setInSection_ne_section (c : Config) (S S' K K' : String)
    (V : Value) (h : S' ≠ S) :
    get (setInSection c S K V) S' K' = get c S' K' := by
  unfold get
  rw [lookupA_setInSection_ne c S S' K V h]

theorem has_section_setInSection (c : Config) (S S' K : String) (V : Value) :
    has_section (setInSection c S K V) S' = has_section c S' := by
  simp [has_section, get_sections, map_fst_setInSection]

theorem has_section_add_section_self (c : Config) (S : String) :
    has_section (add_section c S) S = true := by
  unfold add_section
  by_cases h : has_section c S
  · simp [h]
  · simp [h]
    rw [has_section_iff_lookupA, lookupA_setA_self]
    rfl

theorem lookupA_add_section_ne (c : Config) (S S' : String) (h : S' ≠ S) :
    lookupA (add_section c S) S' = lookupA c S' := by
  unfold add_section
  by_cases hh : has_section c S
  · simp [hh]
  · simp [hh, lookupA_setA_ne c S S' [] h]

theorem get_add_section (c : Config) (S S' K : String) :
    get (add_section c S) S' K = get c S' K := by
  by_cases hs : S' = S
  · subst hs
    unfold add_section
    by_cases hh : has_section c S'
    · simp [hh]
    · have hl : lookupA c S' = none := by
        rw [lookupA_eq_none_iff]
        intro hmem
        rw [has_section_iff_lookupA, lookupA_isSome_iff] at hh
        exact hh hmem
      simp [hh, get, hl, lookupA_setA_self, lookupA]
  · unfold get
    rw [lookupA_add_section_ne c S S' hs]

theorem has_section_add_section_mono (c : Config) (S S' : String)
    (h : has_section c S' = true) :
    has_section (add_section c S) S' = true := by
  by_cases hs : S' = S
  · subst hs
    exact has_section_add_section_self c S'
  · rw [has_section_iff_lookupA] at h ⊢
    rw [lookupA_add_section_ne c S S' hs]
    exact h

theorem contains_iff_mem (l : List String) (a : String) :
    l.contains a = true ↔ a ∈ l := by
  simp

theorem mergedValue_none (o : Bool) (old : Option Value) :
    mergedValue o old none = old := by
  cases o <;> cases old <;> rfl

/-! Behaviour of the inner merge loop. -/

theorem mergeKeys_cons_true (c : Config) (S K : String) (V : Value)
    (rest : List (String × Value)) :
    mergeKeys c S ((K, V) :: rest) true =
      match set c S K V with
      | none => none
      | some c1 => mergeKeys c1 S rest true := rfl

theorem mergeKeys_cons_false (c : Config) (S K : String) (V : Value)
    (rest : List (String × Value)) :
    mergeKeys c S ((K, V) :: rest) false =
      match keys c S with
      | none => none
      | some ks =>
          if ks.contains K then mergeKeys c S rest false
          else
            match set c S K V with
            | none => none
            | some c1 => mergeKeys c1 S rest false := rfl

theorem mergeKeys_cons_false_some (c : Config) (S K : String) (V : Value)
    (rest : List (String × Value)) (ks : List String)
    (hkeys : keys c S = some ks) :
    mergeKeys c S ((K, V) :: rest) false =
      if ks.contains K then mergeKeys c S rest false
      else
        match set c S K V with
        | none => none
        | some c1 => mergeKeys c1 S rest false := by
  rw [mergeKeys_cons_false, hkeys]

theorem mergeKeys_total (S : String) (o : Bool) (entries : List (String × Value)) :
    ∀ c : Config, has_section c S = true →
      ∃ c', mergeKeys c S entries o = some c' ∧
        c'.map Prod.fst = c.map Prod.fst ∧
        ∀ S', S' ≠ S → lookupA c' S' = lookupA c S' := by
  induction entries with
  | nil =>
      intro c _
      exact ⟨c, rfl, rfl, fun S' _ => rfl⟩
  | cons p rest ih =>
      obtain ⟨K, V⟩ := p
      intro c h
      have hset : set c S K V = some (setInSection c S K V) :=
        set_eq_some_of_has_section c S K V h
      have hsec1 : has_section (setInSection c S K V) S = true := by
        rw [has_section_setInSection]
        exact h
      obtain ⟨sec, hl⟩ := Option.isSome_iff_exists.mp
        ((has_section_iff_lookupA c S).mp h)
      cases o with
      | true =>
          obtain ⟨c', h1, h2, h3⟩ := ih (setInSection c S K V) hsec1
          refine ⟨c', ?_, ?_, ?_⟩
          · simp [mergeKeys, hset, h1]
          · rw [h2, map_fst_setInSection]
          · intro S' hne
            rw [h3 S' hne, lookupA_setInSection_ne c S S' K V hne]
      | false =>
          have hkeys : keys c S = some (sec.map Prod.fst) := by
            simp [keys, hl]
          by_cases hmem : (sec.map Prod.fst).contains K
          · obtain ⟨c', h1, h2, h3⟩ := ih c h
            refine ⟨c', ?_, h2, h3⟩
            rw [mergeKeys_cons_false_some c S K V rest _ hkeys, if_pos hmem]
            exact h1
          · obtain ⟨c', h1, h2, h3⟩ := ih (setInSection c S K V) hsec1
            refine ⟨c', ?_, ?_, ?_⟩
            · rw [mergeKeys_cons_false_some c S K V rest _ hkeys, if_neg hmem,
                hset]
              exact h1
            · rw [h2, map_fst_setInSection]
            · intro S' hne
              rw [h3 S' hne, lookupA_setInSection_ne c S S' K V hne]

theorem mergeKeys_spec (S : String) (o : Bool) (entries : List (String × Value)) :
    ∀ c : Config, has_section c S = true → (entries.map Prod.fst).Nodup →
      ∃ c', mergeKeys c S entries o = some c' ∧
        c'.map Prod.fst = c.map Prod.fst ∧
        (∀ S', S' ≠ S → lookupA c' S' = lookupA c S') ∧
        ∀ K, get c' S K = mergedValue o (get c S K) (lookupA entries K) := by
  induction entries with
  | nil =>
      intro c _ _
      refine ⟨c, rfl, rfl, fun S' _ => rfl, fun K => ?_⟩
      rw [show lookupA ([] : List (String × Value)) K = none from rfl,
        mergedValue_none]
  | cons p rest ih =>
      obtain ⟨K0, V0⟩ := p
      intro c h hn
      rw [List.map_cons, List.nodup_cons] at hn
      have hK0rest : lookupA rest K0 = none := by
        rw [lookupA_eq_none_iff]
        exact hn.1
      have hset : set c S K0 V0 = some (setInSection c S K0 V0) :=
        set_eq_some_of_has_section c S K0 V0 h
      have hsec1 : has_section (setInSection c S K0 V0) S = true := by
        rw [has_section_setInSection]
        exact h
      obtain ⟨sec, hl⟩ := Option.isSome_iff_exists.mp
        ((has_section_iff_lookupA c S).mp h)
      have hget1 : ∀ K, get (setInSection c S K0 V0) S K =
          if K = K0 then some V0 else get c S K := by
        intro K
        rw [get_setInSection]
        by_cases hk : K = K0
        · simp [hk, hl]
        · simp [hk]
      cases o with
      | true =>
          obtain ⟨c', h1, h2, h3, h4⟩ := ih (setInSection c S K0 V0) hsec1 hn.2
          refine ⟨c', ?_, ?_, ?_, ?_⟩
          · simp [mergeKeys, hset, h1]
          · rw [h2, map_fst_setInSection]
          · intro S' hne
            rw [h3 S' hne, lookupA_setInSection_ne c S S' K0 V0 hne]
          · intro K
            rw [h4 K, hget1 K]
            by_cases hk : K = K0
            · subst hk
              simp [lookupA, hK0rest, mergedValue_none, mergedValue]
            · rw [if_neg hk]
              simp [lookupA, Ne.symm hk]
      | false =>
          have hkeys : keys c S = some (sec.map Prod.fst) := by
            simp [keys, hl]
          by_cases hmem : (sec.map Prod.fst).contains K0
          · have hold : (lookupA sec K0).isSome = true := by
              rw [lookupA_isSome_iff]
              exact (contains_iff_mem _ _).mp hmem
            obtain ⟨w, hw⟩ := Option.isSome_iff_exists.mp hold
            obtain ⟨c', h1, h2, h3, h4⟩ := ih c h hn.2
            refine ⟨c', ?_, h2, h3, ?_⟩
            · rw [mergeKeys_cons_false_some c S K0 V0 rest _ hkeys, if_pos hmem]
              exact h1
            · intro K
              rw [h4 K]
              by_cases hk : K = K0
              · subst hk
                have hgw : get c S K = some w := by
                  simp [get, hl, hw]
                simp [hgw, lookupA, mergedValue]
              · simp [lookupA, Ne.symm hk]
          · have hold : lookupA sec K0 = none := by
              rw [lookupA_eq_none_iff]
              intro hmem2
              exact hmem ((contains_iff_mem _ _).mpr hmem2)
            have holdc : get c S K0 = none := by
              simp [get, hl, hold]
            obtain ⟨c', h1, h2, h3, h4⟩ := ih (setInSection c S K0 V0) hsec1 hn.2
            refine ⟨c', ?_, ?_, ?_, ?_⟩
            · rw [mergeKeys_cons_false_some c S K0 V0 rest _ hkeys, if_neg hmem,
                hset]
              exact h1
            · rw [h2, map_fst_setInSection]
            · intro S' hne
              rw [h3 S' hne, lookupA_setInSection_ne c S S' K0 V0 hne]
            · intro K
              rw [h4 K, hget1 K]
              by_cases hk : K = K0
              · subst hk
                simp [lookupA, hK0rest, holdc, mergedValue]
              · rw [if_neg hk]
                simp [lookupA, Ne.symm hk]

/-! Behaviour of the outer merge loop. -/

theorem mergeCfg_cons_vdict (c : Config) (S : String)
    (m rest : List (String × Value)) (o : Bool) :
    mergeCfg c ((S, Value.vdict m) :: rest) o =
      match mergeKeys
          (if (get_sections c).contains S then c else add_section c S)
          S m o with
      | none => none
      | some c2 => mergeCfg c2 rest o := rfl

theorem mergeCfg_cons_str (c : Config) (S s : String)
    (rest : List (String × Value)) (o : Bool) :
    mergeCfg c ((S, Value.str s) :: rest) o = mergeCfg c rest o := rfl

theorem has_section_congr (c c' : Config) (S : String)
    (h : c.map Prod.fst = c'.map Prod.fst) :
    has_section c S = has_section c' S := by
  simp [has_section, get_sections, h]

theorem get_congr_lookup (c c' : Config) (S : String)
    (h : lookupA c' S = lookupA c S) (K : String) :
    get c' S K = get c S K := by
  simp [get, h]

theorem has_section_ensure (c : Config) (S : String) :
    has_section
      (if (get_sections c).contains S then c else add_section c S) S = true := by
  by_cases h : (get_sections c).contains S = true
  · rw [if_pos h]
    exact h
  · rw [if_neg h]
    exact has_section_add_section_self c S

theorem has_section_ensure_mono (c : Config) (S S' : String)
    (h : has_section c S' = true) :
    has_section
      (if (get_sections c).contains S then c else add_section c S) S' = true := by
  by_cases hc : (get_sections c).contains S = true
  · rw [if_pos hc]
    exact h
  · rw [if_neg hc]
    exact has_section_add_section_mono c S S' h

theorem lookupA_ensure_ne (c : Config) (S S' : String) (h : S' ≠ S) :
    lookupA
      (if (get_sections c).contains S then c else add_section c S) S' =
      lookupA c S' := by
  by_cases hc : (get_sections c).contains S = true
  · rw [if_pos hc]
  · rw [if_neg hc]
    exact lookupA_add_section_ne c S S' h

theorem get_ensure (c : Config) (S S' K : String) :
    get (if (get_sections c).contains S then c else add_section c S) S' K =
      get c S' K := by
  by_cases hc : (get_sections c).contains S = true
  · rw [if_pos hc]
  · rw [if_neg hc]
    exact get_add_section c S S' K

theorem mergeCfg_total (o : Bool) (d : List (String × Value)) :
    ∀ c : Config, ∃ c', mergeCfg c d o = some c' ∧
      (∀ S, has_section c S = true → has_section c' S = true) ∧
      (∀ S m, (S, Value.vdict m) ∈ d → has_section c' S = true) := by
  induction d with
  | nil =>
      intro c
      exact ⟨c, rfl, fun S h => h, fun S m hm => absurd hm (by simp)⟩
  | cons p rest ih =>
      obtain ⟨S0, v0⟩ := p
      intro c
      cases v0 with
      | str s =>
          obtain ⟨c', h1, h2, h3⟩ := ih c
          refine ⟨c', ?_, h2, ?_⟩
          · rw [mergeCfg_cons_str]
            exact h1
          · intro S m hm
            rcases List.mem_cons.mp hm with he | hm2
            · exact Value.noConfusion (congrArg Prod.snd he)
            · exact h3 S m hm2
      | vdict m =>
          have hsec1 := has_section_ensure c S0
          obtain ⟨c2, hm1, hm2, hm3⟩ := mergeKeys_total S0 o m _ hsec1
          obtain ⟨c', h1, h2, h3⟩ := ih c2
          have hsec2 : ∀ S', has_section c2 S' = has_section
              (if (get_sections c).contains S0 then c
               else add_section c S0) S' :=
            fun S' => has_section_congr c2 _ S' hm2
          refine ⟨c', ?_, ?_, ?_⟩
          · rw [mergeCfg_cons_vdict, hm1]
            exact h1
          · intro S h
            apply h2
            rw [hsec2 S]
            exact has_section_ensure_mono c S0 S h
          · intro S m2 hm
            rcases List.mem_cons.mp hm with he | hmm
            · have hS : S = S0 := congrArg Prod.fst he
              subst hS
              apply h2
              rw [hsec2 S]
              exact hsec1
            · exact h3 S m2 hmm

theorem mergeCfg_spec (o : Bool) (d : List (String × Value)) :
    ∀ c : Config, dWF d →
      ∃ c', mergeCfg c d o = some c' ∧
        ∀ S,
          (∀ m, lookupA d S = some (Value.vdict m) →
            has_section c' S = true ∧
            ∀ K, get c' S K = mergedValue o (get c S K) (lookupA m K)) ∧
          ((∀ m, lookupA d S ≠ some (Value.vdict m)) →
            lookupA c' S = lookupA c S) := by
  induction d with
  | nil =>
      intro c _
      refine ⟨c, rfl, fun S => ⟨fun m hm => ?_, fun _ => rfl⟩⟩
      exact Option.noConfusion hm
  | cons p rest ih =>
      obtain ⟨S0, v0⟩ := p
      intro c hwf
      have hS0notin : S0 ∉ rest.map Prod.fst := by
        have := hwf.1
        rw [List.map_cons, List.nodup_cons] at this
        exact this.1
      have hwr : dWF rest := by
        constructor
        · have := hwf.1
          rw [List.map_cons, List.nodup_cons] at this
          exact this.2
        · intro q hq
          exact hwf.2 q (List.mem_cons_of_mem _ hq)
      have hrestS0 : lookupA rest S0 = none := by
        rw [lookupA_eq_none_iff]
        exact hS0notin
      cases v0 with
      | str s =>
          obtain ⟨c', h1, hc'⟩ := ih c hwr
          refine ⟨c', ?_, ?_⟩
          · rw [mergeCfg_cons_str]
            exact h1
          · intro S
            by_cases hS : S0 = S
            · subst hS
              have hd : lookupA ((S0, Value.str s) :: rest) S0 =
                  some (Value.str s) := by
                simp [lookupA]
              constructor
              · intro m hm
                rw [hd] at hm
                exact Value.noConfusion (Option.some.inj hm)
              · intro _
                have h2 := (hc' S0).2
                apply h2
                intro m hm
                rw [hrestS0] at hm
                exact Option.noConfusion hm
            · have hd : lookupA ((S0, Value.str s) :: rest) S =
                  lookupA rest S := by
                simp [lookupA, hS]
              rw [hd]
              exact hc' S
      | vdict m =>
          have hmn : (m.map Prod.fst).Nodup := by
            have := hwf.2 (S0, Value.vdict m) (List.mem_cons_self _ _)
            exact this
          have hsec1 := has_section_ensure c S0
          obtain ⟨c2, hk1, hk2, hk3, hk4⟩ :=
            mergeKeys_spec S0 o m _ hsec1 hmn
          obtain ⟨c', h1, hc'⟩ := ih c2 hwr
          refine ⟨c', ?_, ?_⟩
          · rw [mergeCfg_cons_vdict, hk1]
            exact h1
          · intro S
            by_cases hS : S0 = S
            · subst hS
              have hd : lookupA ((S0, Value.vdict m) :: rest) S0 =
                  some (Value.vdict m) := by
                simp [lookupA]
              have hfix : lookupA c' S0 = lookupA c2 S0 := by
                apply (hc' S0).2
                intro m2 hm2
                rw [hrestS0] at hm2
                exact Option.noConfusion hm2
              constructor
              · intro m2 hm2
                rw [hd] at hm2
                have hm2eq : m2 = m := by
                  have := Option.some.inj hm2
                  injection this with h
                  exact h.symm
                subst hm2eq
                constructor
                · rw [has_section_iff_lookupA, hfix,
                    ← has_section_iff_lookupA,
                    has_section_congr c2 _ S0 hk2]
                  exact hsec1
                · intro K
                  rw [get_congr_lookup c2 c' S0 hfix K, hk4 K, get_ensure]
              · intro hno
                exact absurd hd (hno m)
            · have hd : lookupA ((S0, Value.vdict m) :: rest) S =
                  lookupA rest S := by
                simp [lookupA, hS]
              have hSne : S ≠ S0 := fun h => hS h.symm
              have hc2c : lookupA c2 S = lookupA c S := by
                rw [hk3 S hSne, lookupA_ensure_ne c S0 S hSne]
              constructor
              · intro m2 hm2
                rw [hd] at hm2
                obtain ⟨hA, hB⟩ := (hc' S).1 m2 hm2
                refine ⟨hA, fun K => ?_⟩
                rw [hB K, get_congr_lookup c c2 S hc2c K]
              · intro hno
                rw [hd] at hno
                rw [(hc' S).2 hno, hc2c]

/-! Behaviour of `get_section_dict`. -/

theorem setA_append {α : Type} (l : List (String × α)) (k : String) (v : α)
    (h : k ∉ l.map Prod.fst) : setA l k v = l ++ [(k, v)] := by
  induction l with
  | nil => rfl
  | cons p rest ih =>
      obtain ⟨k0, w⟩ := p
      have hne : ¬ k0 = k := by
        intro he
        exact h (by simp [he])
      have hrest : k ∉ rest.map Prod.fst := by
        intro hm
        exact h (by simp [hm])
      simp [setA, hne, ih hrest]

theorem sectionDictGo_spec (sec : Sect) :
    ∀ (ks : List String) (acc : Sect), ks.Nodup →
      (∀ k ∈ ks, k ∈ sec.map Prod.fst) →
      (∀ k ∈ ks, k ∉ acc.map Prod.fst) →
      ∃ l, sectionDictGo sec ks acc = some l ∧
        l.map Prod.fst = acc.map Prod.fst ++ ks ∧
        ∀ p ∈ l, p ∈ acc ∨ lookupA sec p.1 = some p.2 := by
  intro ks
  induction ks with
  | nil =>
      intro acc _ _ _
      exact ⟨acc, rfl, by simp, fun p hp => Or.inl hp⟩
  | cons k ks ih =>
      intro acc hnd hmem hfresh
      rw [List.nodup_cons] at hnd
      have hk : k ∈ sec.map Prod.fst := hmem k (List.mem_cons_self _ _)
      obtain ⟨v, hv⟩ := Option.isSome_iff_exists.mp
        ((lookupA_isSome_iff sec k).mpr hk)
      have hkacc : k ∉ acc.map Prod.fst :=
        hfresh k (List.mem_cons_self _ _)
      have hacc2 : ∀ k' ∈ ks, k' ∉ (setA acc k v).map Prod.fst := by
        intro k' hk' hmem2
        rcases (mem_map_fst_setA acc k k' v).mp hmem2 with he | hin
        · subst he
          exact hnd.1 hk'
        · exact hfresh k' (List.mem_cons_of_mem _ hk') hin
      obtain ⟨l, h1, h2, h3⟩ := ih (setA acc k v) hnd.2
        (fun k' hk' => hmem k' (List.mem_cons_of_mem _ hk')) hacc2
      refine ⟨l, ?_, ?_, ?_⟩
      · simp [sectionDictGo, hv, h1]
      · rw [h2, map_fst_setA_of_not_mem acc k v hkacc]
        simp
      · intro p hp
        rcases h3 p hp with hin | hlook
        · rw [setA_append acc k v hkacc] at hin
          rcases List.mem_append.mp hin with hin2 | hin2
          · exact Or.inl hin2
          · right
            have hpe : p = (k, v) := by simpa using hin2
            rw [hpe]
            exact hv
        · exact Or.inr hlook

theorem get_section_dict_isSome (c : Config) (S : String) (sec : Sect)
    (hl : lookupA c S = some sec) :
    ∃ l, get_section_dict c S = some l := by
  have htot : ∀ (ks : List String) (acc : Sect),
      (∀ k ∈ ks, k ∈ sec.map Prod.fst) →
      ∃ l, sectionDictGo sec ks acc = some l := by
    intro ks
    induction ks with
    | nil => intro acc _; exact ⟨acc, rfl⟩
    | cons k ks ih =>
        intro acc hmem
        obtain ⟨v, hv⟩ := Option.isSome_iff_exists.mp
          ((lookupA_isSome_iff sec k).mpr (hmem k (List.mem_cons_self _ _)))
        obtain ⟨l, h1⟩ := ih (setA acc k v)
          (fun k' hk' => hmem k' (List.mem_cons_of_mem _ hk'))
        exact ⟨l, by simp [sectionDictGo, hv, h1]⟩
  obtain ⟨l, h1⟩ := htot (sec.map Prod.fst) [] (fun k hk => hk)
  refine ⟨l, ?_⟩
  unfold get_section_dict
  rw [hl]
  exact h1

theorem mergedValue_isSome (o : Bool) (old incoming : Option Value)
    (h : old.isSome = true) : (mergedValue o old incoming).isSome = true := by
  cases o <;> cases old <;> cases incoming <;> simp_all [mergedValue]

theorem add_section_of_has_section (c : Config) (S : String)
    (h : has_section c S = true) : add_section c S = c := by
  unfold add_section
  rw [if_pos h]

theorem has_section_eq_isSome (c : Config) (S : String) :
    has_section c S = (lookupA c S).isSome := by
  by_cases h : has_section c S = true
  · rw [h]
    exact ((has_section_iff_lookupA c S).mp h).symm
  · have h2 : has_section c S = false := by
      cases hx : has_section c S
      · rfl
      · exact absurd hx h
    have h3 : (lookupA c S).isSome = false := by
      cases hx : (lookupA c S).isSome
      · rfl
      · exact absurd ((has_section_iff_lookupA c S).mpr hx) h
    rw [h2, h3]

/-! The claims. -/

/-- C1: after `merge(dict_obj, override=true)` the incoming value wins for
every section/key pair present in `dict_obj`; after
`merge(dict_obj, override=false)` the pre-existing value is kept when the
key already existed in the section, and the incoming value is written only
when the key was absent. -/
theorem claim_C1 (c c1 c2 : Config) (d : List (String × Value))
    (S K : String) (m : List (String × Value)) (v : Value)
    (hwf : dWF d) (hdS : lookupA d S = some (Value.vdict m))
    (hmK : lookupA m K = some v)
    (h1 : mergeCfg c d true = some c1)
    (h2 : mergeCfg c d false = some c2) :
    get c1 S K = some v ∧
    get c2 S K = some ((get c S K).getD v) := by
  obtain ⟨c1', hm1, hchar1⟩ := mergeCfg_spec true d c hwf
  rw [h1] at hm1
  injection hm1 with he1
  subst he1
  obtain ⟨c2', hm2, hchar2⟩ := mergeCfg_spec false d c hwf
  rw [h2] at hm2
  injection hm2 with he2
  subst he2
  constructor
  · rw [((hchar1 S).1 m hdS).2 K, hmK]
    simp [mergedValue]
  · rw [((hchar2 S).1 m hdS).2 K, hmK]
    cases hg : get c S K <;> simp [mergedValue]

/-- Witness for C1 on a concrete store: the second merge wins under
override and loses without it. -/
theorem claim_C1_witness :
    get [("sec", [("k", Value.str "v2")])] "sec" "k" =
      some (Value.str "v2") ∧
    get [("sec", [("k", Value.str "v1")])] "sec" "k" =
      some ((get [("sec", [("k", Value.str "v1")])] "sec" "k").getD
        (Value.str "v2")) :=
  claim_C1 [("sec", [("k", Value.str "v1")])]
    [("sec", [("k", Value.str "v2")])]
    [("sec", [("k", Value.str "v1")])]
    [("sec", Value.vdict [("k", Value.str "v2")])]
    "sec" "k" [("k", Value.str "v2")] (Value.str "v2")
    (by decide) rfl rfl rfl rfl

/-- C2: `parse_file` on a path that does not exist returns `False` and
returns the configuration unchanged. -/
theorem claim_C2 (fs : FileSystem) (c : Config) (path : String)
    (h : lookupA fs.files (fs.normalize path) = none) :
    parse_file fs c path = some (false, c) := by
  unfold parse_file
  rw [h]

/-- Witness for C2: an empty filesystem and a populated configuration. -/
theorem claim_C2_witness :
    parse_file ⟨[], id⟩ [("a", [("b", Value.str "x")])] "missing" =
      some (false, [("a", [("b", Value.str "x")])]) :=
  claim_C2 ⟨[], id⟩ [("a", [("b", Value.str "x")])] "missing" rfl

/-- C3: `merge` treats every dict-valued top-level key as a section
(present afterwards), leaves the store untouched at every top-level key
whose value is not a dict, and stores written values opaquely (the
incoming value itself, even when nested, is what the policy writes). -/
theorem claim_C3 (c c' : Config) (d : List (String × Value)) (o : Bool)
    (hwf : dWF d) (hm : mergeCfg c d o = some c') :
    (∀ S m, lookupA d S = some (Value.vdict m) →
      has_section c' S = true) ∧
    (∀ S v, lookupA d S = some v → (∀ m, v ≠ Value.vdict m) →
      lookupA c' S = lookupA c S ∧ has_section c' S = has_section c S) ∧
    (∀ S m K v, lookupA d S = some (Value.vdict m) →
      lookupA m K = some v →
      get c' S K = mergedValue o (get c S K) (some v)) := by
  obtain ⟨c'', hm2, hchar⟩ := mergeCfg_spec o d c hwf
  rw [hm] at hm2
  injection hm2 with he
  subst he
  refine ⟨?_, ?_, ?_⟩
  · intro S m hdS
    exact ((hchar S).1 m hdS).1
  · intro S v hdS hnv
    have hno : ∀ m, lookupA d S ≠ some (Value.vdict m) := by
      intro m hm3
      rw [hdS] at hm3
      exact hnv m (Option.some.inj hm3)
    have hl := (hchar S).2 hno
    refine ⟨hl, ?_⟩
    rw [has_section_eq_isSome, has_section_eq_isSome, hl]
  · intro S m K v hdS hmK
    rw [((hchar S).1 m hdS).2 K, hmK]

/-- Witness for C3 on a store with one dict entry and one scalar entry. -/
theorem claim_C3_witness :
    (∀ S m, lookupA [("sec", Value.vdict [("k", Value.str "v")]),
        ("scalar", Value.str "x")] S = some (Value.vdict m) →
      has_section [("sec", [("k", Value.str "v")])] S = true) ∧
    (∀ S v, lookupA [("sec", Value.vdict [("k", Value.str "v")]),
        ("scalar", Value.str "x")] S = some v →
      (∀ m, v ≠ Value.vdict m) →
      lookupA [("sec", [("k", Value.str "v")])] S =
        lookupA ([] : Config) S ∧
      has_section [("sec", [("k", Value.str "v")])] S =
        has_section ([] : Config) S) ∧
    (∀ S m K v, lookupA [("sec", Value.vdict [("k", Value.str "v")]),
        ("scalar", Value.str "x")] S = some (Value.vdict m) →
      lookupA m K = some v →
      get [("sec", [("k", Value.str "v")])] S K =
        mergedValue true (get ([] : Config) S K) (some v)) :=
  claim_C3 [] [("sec", [("k", Value.str "v")])]
    [("sec", Value.vdict [("k", Value.str "v")]),
      ("scalar", Value.str "x")] true (by decide) rfl

/-- C4: `parse_file` on an existing, parsed file returns `True` and
merges the file into the live configuration with override enabled: the
result is exactly the override-merge of the file dict, every
pre-existing section survives, and every section of the file is
retrievable afterwards via `get_sections` / `get_section_dict`. -/
theorem claim_C4 (fs : FileSystem) (c : Config) (path : String)
    (d : List (String × Value))
    (h : lookupA fs.files (fs.normalize path) = some d) :
    ∃ c', mergeCfg c d true = some c' ∧
      parse_file fs c path = some (true, c') ∧
      (∀ S, has_section c S = true → has_section c' S = true) ∧
      (∀ S m, (S, Value.vdict m) ∈ d →
        has_section c' S = true ∧ S ∈ get_sections c' ∧
        ∃ l, get_section_dict c' S = some l) := by
  obtain ⟨c', hm, hmono, hsects⟩ := mergeCfg_total true d c
  refine ⟨c', hm, ?_, hmono, ?_⟩
  · unfold parse_file
    rw [h]
    show (match mergeCfg c d true with
      | none => none
      | some c2 => some (true, c2)) = some (true, c')
    rw [hm]
  · intro S m hmem
    have h1 := hsects S m hmem
    have h2 : S ∈ get_sections c' := (contains_iff_mem _ _).mp h1
    obtain ⟨sec, hsec⟩ := Option.isSome_iff_exists.mp
      ((has_section_iff_lookupA c' S).mp h1)
    obtain ⟨l, hl⟩ := get_section_dict_isSome c' S sec hsec
    exact ⟨h1, h2, ⟨l, hl⟩⟩

/-- Witness for C4: a one-file filesystem merged into a one-section
configuration. -/
theorem claim_C4_witness :
    ∃ c', mergeCfg [("old", [("a", Value.str "1")])]
        [("sec", Value.vdict [("k", Value.str "v")])] true = some c' ∧
      parse_file
        ⟨[("/etc/app.conf", [("sec", Value.vdict [("k", Value.str "v")])])],
          id⟩
        [("old", [("a", Value.str "1")])] "/etc/app.conf" =
        some (true, c') ∧
      (∀ S, has_section [("old", [("a", Value.str "1")])] S = true →
        has_section c' S = true) ∧
      (∀ S m, (S, Value.vdict m) ∈
          [("sec", Value.vdict [("k", Value.str "v")])] →
        has_section c' S = true ∧ S ∈ get_sections c' ∧
        ∃ l, get_section_dict c' S = some l) :=
  claim_C4
    ⟨[("/etc/app.conf", [("sec", Value.vdict [("k", Value.str "v")])])], id⟩
    [("old", [("a", Value.str "1")])] "/etc/app.conf"
    [("sec", Value.vdict [("k", Value.str "v")])] rfl

/-- C5: `set` succeeds exactly when the section exists — it creates the
key under an existing section, and fails with a `KeyError` (modelled as
`none`) when the section is absent, never creating the section. -/
theorem claim_C5 (c cm : Config) (S K : String) (V : Value)
    (h : has_section c S = true) (hm : has_section cm S = false) :
    (∃ c', set c S K V = some c' ∧ get c' S K = some V) ∧
    set cm S K V = none := by
  constructor
  · refine ⟨setInSection c S K V, set_eq_some_of_has_section c S K V h, ?_⟩
    rw [get_setInSection]
    simp [(has_section_iff_lookupA c S).mp h]
  · exact set_eq_none_of_not_has_section cm S K V hm

/-- Witness for C5: setting into an existing section succeeds, setting
into a missing section fails. -/
theorem claim_C5_witness :
    (∃ c', set [("sec", [])] "sec" "k" (Value.str "v") = some c' ∧
      get c' "sec" "k" = some (Value.str "v")) ∧
    set [] "sec" "k" (Value.str "v") = none :=
  claim_C5 [("sec", [])] [] "sec" "k" (Value.str "v") rfl rfl

/-- C6: the `set`/`get` round trip — whenever `set(S, K, V)` succeeds,
`get(S, K)` on the resulting configuration returns `V`. -/
theorem claim_C6 (c c' : Config) (S K : String) (V : Value)
    (h : set c S K V = some c') : get c' S K = some V := by
  unfold set at h
  cases hl : lookupA c S with
  | none =>
      rw [hl] at h
      exact Option.noConfusion h
  | some sec =>
      rw [hl] at h
      injection h with he
      subst he
      rw [get_setInSection]
      simp [hl]

/-- Witness for C6: a concrete round trip through an existing section. -/
theorem claim_C6_witness :
    get [("sec", [("k", Value.str "v")])] "sec" "k" =
      some (Value.str "v") :=
  claim_C6 [("sec", [])] [("sec", [("k", Value.str "v")])] "sec" "k"
    (Value.str "v") rfl

/-- C7: for an existing section, `get_section_dict` returns a mapping
whose key list is exactly `keys(S)` and which maps each key to
`get(S, key)`. -/
theorem claim_C7 (c : Config) (S : String) (sec : Sect)
    (hl : lookupA c S = some sec) (hn : (sec.map Prod.fst).Nodup) :
    ∃ l, get_section_dict c S = some l ∧
      keys c S = some (l.map Prod.fst) ∧
      ∀ p ∈ l, get c S p.1 = some p.2 := by
  obtain ⟨l, h1, h2, h3⟩ := sectionDictGo_spec sec (sec.map Prod.fst) [] hn
    (fun k hk => hk) (fun k _ => by simp)
  refine ⟨l, ?_, ?_, ?_⟩
  · unfold get_section_dict
    rw [hl]
    exact h1
  · rw [show keys c S = some (sec.map Prod.fst) by simp [keys, hl]]
    rw [h2]
    simp
  · intro p hp
    rcases h3 p hp with hin | hlook
    · exact absurd hin (by simp)
    · simp [get, hl, hlook]

/-- Witness for C7 on a two-key section. -/
theorem claim_C7_witness :
    ∃ l, get_section_dict
        [("sec", [("a", Value.str "1"), ("b", Value.str "2")])] "sec" =
        some l ∧
      keys [("sec", [("a", Value.str "1"), ("b", Value.str "2")])] "sec" =
        some (l.map Prod.fst) ∧
      ∀ p ∈ l, get [("sec", [("a", Value.str "1"), ("b", Value.str "2")])]
        "sec" p.1 = some p.2 :=
  claim_C7 [("sec", [("a", Value.str "1"), ("b", Value.str "2")])] "sec"
    [("a", Value.str "1"), ("b", Value.str "2")] rfl (by decide)

/-- C8: `add_section` is idempotent — a second call on the same name
returns the configuration produced by the first call unchanged. -/
theorem claim_C8 (c : Config) (S : String) :
    add_section (add_section c S) S = add_section c S :=
  add_section_of_has_section _ _ (has_section_add_section_self c S)

/-- C9: a section name absent from the configuration is reported absent
by `has_section`, is reported present after `add_section`, and
`has_section` agrees with membership in `get_sections` on every name. -/
theorem claim_C9 (c : Config) (S : String) (h : S ∉ get_sections c) :
    has_section c S = false ∧
    has_section (add_section c S) S = true ∧
    ∀ S', (has_section c S' = true ↔ S' ∈ get_sections c) := by
  refine ⟨?_, has_section_add_section_self c S,
    fun S' => contains_iff_mem (get_sections c) S'⟩
  cases hb : has_section c S
  · rfl
  · exact absurd ((contains_iff_mem (get_sections c) S).mp hb) h

/-- Witness for C9: a fresh section name next to an unrelated section. -/
theorem claim_C9_witness :
    has_section [("other", [])] "sec" = false ∧
    has_section (add_section [("other", [])] "sec") "sec" = true ∧
    ∀ S', (has_section [("other", [])] S' = true ↔
      S' ∈ get_sections [("other", [])]) :=
  claim_C9 [("other", [])] "sec" (by decide)

/-- C10: frame property of `merge` — sections not named by a dict-valued
top-level key are untouched, keys outside the named nested mapping are
untouched, and `merge` never deletes a section or a key. -/
theorem claim_C10 (c c' : Config) (d : List (String × Value)) (o : Bool)
    (hwf : dWF d) (hm : mergeCfg c d o = some c') :
    (∀ S, (∀ m, (S, Value.vdict m) ∉ d) →
      lookupA c' S = lookupA c S) ∧
    (∀ S m K, (S, Value.vdict m) ∈ d → K ∉ m.map Prod.fst →
      get c' S K = get c S K) ∧
    (∀ S, has_section c S = true → has_section c' S = true) ∧
    (∀ S K, (get c S K).isSome = true → (get c' S K).isSome = true) := by
  obtain ⟨c'', hm2, hchar⟩ := mergeCfg_spec o d c hwf
  rw [hm] at hm2
  injection hm2 with he
  subst he
  have hnotin : ∀ S, (∀ m, (S, Value.vdict m) ∉ d) →
      ∀ m, lookupA d S ≠ some (Value.vdict m) := by
    intro S hno m hl
    exact hno m (mem_of_lookupA_eq_some d S _ hl)
  refine ⟨?_, ?_, ?_, ?_⟩
  · intro S hno
    exact (hchar S).2 (hnotin S hno)
  · intro S m K hmem hK
    have hdS : lookupA d S = some (Value.vdict m) :=
      lookupA_eq_some_of_mem_nodup d S _ hwf.1 hmem
    have hmK : lookupA m K = none := by
      rw [lookupA_eq_none_iff]
      exact hK
    rw [((hchar S).1 m hdS).2 K, hmK, mergedValue_none]
  · intro S hs
    by_cases hx : ∀ m, lookupA d S ≠ some (Value.vdict m)
    · rw [has_section_eq_isSome, (hchar S).2 hx, ← has_section_eq_isSome]
      exact hs
    · push_neg at hx
      obtain ⟨m, hdS⟩ := hx
      exact ((hchar S).1 m hdS).1
  · intro S K hs
    by_cases hx : ∀ m, lookupA d S ≠ some (Value.vdict m)
    · rw [get_congr_lookup c c' S ((hchar S).2 hx) K]
      exact hs
    · push_neg at hx
      obtain ⟨m, hdS⟩ := hx
      rw [((hchar S).1 m hdS).2 K]
      exact mergedValue_isSome o _ _ hs

/-- Witness for C10: merging one dict entry next to an untouched
section. -/
theorem claim_C10_witness :
    (∀ S, (∀ m, (S, Value.vdict m) ∉
        [("sec", Value.vdict [("k", Value.str "v")])]) →
      lookupA [("keep", [("x", Value.str "1")]),
        ("sec", [("a", Value.str "2"), ("k", Value.str "v")])] S =
      lookupA [("keep", [("x", Value.str "1")]),
        ("sec", [("a", Value.str "2")])] S) ∧
    (∀ S m K, (S, Value.vdict m) ∈
        [("sec", Value.vdict [("k", Value.str "v")])] →
      K ∉ m.map Prod.fst →
      get [("keep", [("x", Value.str "1")]),
        ("sec", [("a", Value.str "2"), ("k", Value.str "v")])] S K =
      get [("keep", [("x", Value.str "1")]),
        ("sec", [("a", Value.str "2")])] S K) ∧
    (∀ S, has_section [("keep", [("x", Value.str "1")]),
        ("sec", [("a", Value.str "2")])] S = true →
      has_section [("keep", [("x", Value.str "1")]),
        ("sec", [("a", Value.str "2"), ("k", Value.str "v")])] S = true) ∧
    (∀ S K, (get [("keep", [("x", Value.str "1")]),
        ("sec", [("a", Value.str "2")])] S K).isSome = true →
      (get [("keep", [("x", Value.str "1")]),
        ("sec", [("a", Value.str "2"), ("k", Value.str "v")])]
        S K).isSome = true) :=
  claim_C10 [("keep", [("x", Value.str "1")]), ("sec", [("a", Value.str "2")])]
    [("keep", [("x", Value.str "1")]),
      ("sec", [("a", Value.str "2"), ("k", Value.str "v")])]
    [("sec", Value.vdict [("k", Value.str "v")])] true (by decide) rfl

end ConfigObjHandler
